import Mathlib

/-!
Verification of the sunburst maturity assessment app (src/src/App.jsx).

The app is a single React component. The parts embedded here are the pure
computational core the claims are about:

* naturalSort (App.jsx 44-46): comparator on rows delegating to
  String.localeCompare with options numeric true, sensitivity base.
  The builtin is modelled from its documented ECMA-402 / UTS 10 (CODAN)
  semantics for ASCII input: maximal decimal-digit runs are compared as
  numbers, other characters case-insensitively by code point.
* calculateHierarchyScores (App.jsx 265-307): copies each row, links
  children by the dotted-id convention (id minus its last dot segment is
  the parent id, looked up in a map where a later duplicate id wins),
  recomputes internal scores bottom-up, and returns the rows sorted by
  naturalSort.  The imperative recursion calculateScore (285-303) is
  embedded as a fueled function scoreFuel; enough fuel makes it a fixed
  point (proved below), because a child CID is always strictly longer
  than its parent CID.
* handleMaturityClick (App.jsx 349-388): maturity rank resolution and
  toggle semantics.
* the D3 chart effect (App.jsx 50-250): hierarchy value sum, the
  descending-value sort, the partition layout, and the click / center
  click zoom targets.
* handlePaste / processRawData / loadJson (App.jsx 309-477): import
  control flow; the external parsers (d3.csvParse, JSON.parse) are
  modelled as an Option-valued parse outcome, none standing for a throw.

JS numbers are modelled as rationals, absent (undefined) scores as none.
-/

/-- Lowercases one ASCII character; models the effect of
String.prototype.toLowerCase on the ASCII texts this app compares. -/
def lowerChar (c : Char) : Char :=
  if 'A' ≤ c ∧ c ≤ 'Z' then Char.ofNat (c.toNat + 32) else c

/-- Whitespace test used by the model of String.prototype.trim. -/
def isWsChar (c : Char) : Bool :=
  c = ' ' ∨ c = '\t' ∨ c = '\n' ∨ c = '\r'

/-- Models String.prototype.trim on a char list: drops leading and
trailing whitespace. -/
def jsTrimL (cs : List Char) : List Char :=
  ((cs.dropWhile isWsChar).reverse.dropWhile isWsChar).reverse

/-- Models the composite String(x).trim().toLowerCase() the app applies
before comparing option texts (App.jsx 353, 361, 369). -/
def normTxt (s : String) : List Char :=
  (jsTrimL s.toList).map lowerChar

/-- Value of a decimal digit run, most significant first. -/
def digitsVal (ds : List Char) : Nat :=
  ds.foldl (fun n c => 10 * n + (c.toNat - 48)) 0

/-- Collation token of the numeric-collation model: a maximal run of
decimal digits, or a single other character. -/
inductive NTok where
  | num : List Char → NTok
  | chr : Char → NTok
deriving DecidableEq

/-- Tokenizer accumulator: run is the reversed digit run read so far. -/
def tokenizeAux : List Char → List Char → List NTok
  | run, [] => if run.isEmpty then [] else [NTok.num run.reverse]
  | run, c :: cs =>
    if c.isDigit then tokenizeAux (c :: run) cs
    else if run.isEmpty then NTok.chr c :: tokenizeAux [] cs
    else NTok.num run.reverse :: NTok.chr c :: tokenizeAux [] cs

/-- Splits a string into maximal digit runs and single other characters,
as ECMA-402 numeric collation does. -/
def tokenize (cs : List Char) : List NTok :=
  tokenizeAux [] cs

/-- First character of a token (digit runs are nonempty by construction). -/
def tokHeadChar : NTok → Char
  | .num ds => ds.headD '0'
  | .chr c => c

/-- Compares two collation tokens: digit runs numerically, anything else
case-insensitively by code point (sensitivity base on ASCII).  A digit
run never ties with a non-digit character, so comparing head characters
is exact in the mixed case. -/
def tokCmp : NTok → NTok → Ordering
  | .num dx, .num dy => compare (digitsVal dx) (digitsVal dy)
  | x, y => compare (lowerChar (tokHeadChar x)).toNat (lowerChar (tokHeadChar y)).toNat

/-- Lexicographic comparison of token lists; a proper initial segment
compares as smaller, as in string collation. -/
def tokListCmp : List NTok → List NTok → Ordering
  | [], [] => .eq
  | [], _ :: _ => .lt
  | _ :: _, [] => .gt
  | x :: xs, y :: ys =>
    match tokCmp x y with
    | .eq => tokListCmp xs ys
    | o => o

/-- Model of a.localeCompare(b, undefined, numeric true, sensitivity
base) as used by naturalSort (App.jsx 44-46), per the documented
ECMA-402 / UTS 10 numeric-collation semantics for ASCII strings. -/
def naturalCompare (a b : String) : Ordering :=
  tokListCmp (tokenize a.toList) (tokenize b.toList)

/-- Stable insertion used to model Array.prototype.sort: a is placed
before the first element b with comparator(a,b) not positive. -/
def insLe {α : Type} (le : α → α → Bool) (a : α) : List α → List α
  | [] => [a]
  | b :: bs => if le a b then a :: b :: bs else b :: insLe le a bs

/-- Models Array.prototype.sort with a consistent comparator: stable,
ascending (le a b meaning comparator(a,b) is not positive). -/
def jsSort {α : Type} (le : α → α → Bool) : List α → List α
  | [] => []
  | a :: as => insLe le a (jsSort le as)

/-- One table row as processRawData produces it (App.jsx 331-338):
CID and Criterion strings, the parsed weight fraction (JS field named
Calculated Weights), the score (none models undefined), the maturity
option texts, and the selected option index (-1 when none). -/
structure Row where
  CID : String
  Criterion : String
  weights : ℚ
  Score : Option ℚ
  maturities : List String
  selectedMaturityIndex : Int
deriving DecidableEq

instance : Inhabited Row :=
  ⟨⟨"", "", 0, none, [], -1⟩⟩

/-- Row at index i of the flat list (rows are addressed by position,
mirroring the array processedData of App.jsx 268). -/
def getRow (data : List Row) (i : Nat) : Row :=
  data.getD i default

/-- Models String.prototype.lastIndexOf for the dot (App.jsx 272):
index of the last dot, none if there is none. -/
def lastDotIdx (cs : List Char) : Option Nat :=
  (List.range cs.length).foldl (fun acc i => if cs.getD i ' ' = '.' then some i else acc) none

/-- Parent id of a dotted id: the id truncated at its last dot
(App.jsx 272-274); none when the id has no dot. -/
def parentCidOf (cid : String) : Option String :=
  match lastDotIdx cid.toList with
  | none => none
  | some i => some (String.mk (cid.toList.take i))

/-- Index of the row the lookup map nodeMap (App.jsx 266-269) holds for
a given CID: the forEach overwrites, so the last row with that CID wins. -/
def nodeMapIdx (data : List Row) (cid : String) : Option Nat :=
  (List.range data.length).foldl
    (fun acc i => if (getRow data i).CID = cid then some i else acc) none

/-- Index of the parent row of row i, as the linking pass (App.jsx
271-283) determines it: the parent id must exist in the lookup map,
otherwise the row is a root. -/
def parentIdx (data : List Row) (i : Nat) : Option Nat :=
  match parentCidOf (getRow data i).CID with
  | none => none
  | some p => nodeMapIdx data p

/-- Children list of row j in forEach push order (App.jsx 276): exactly
the rows whose resolved parent is j, in input order. -/
def childrenIdx (data : List Row) (j : Nat) : List Nat :=
  (List.range data.length).filter (fun i => decide (parentIdx data i = some j))

/-- The rootChildren list (App.jsx 267, 278, 281): rows with no dot in
their id or whose parent id is absent from the lookup map. -/
def rootChildrenIdx (data : List Row) : List Nat :=
  (List.range data.length).filter (fun i => decide (parentIdx data i = none))

/-- Length of the CID of row i. -/
def cidLen (data : List Row) (i : Nat) : Nat :=
  (getRow data i).CID.length

/-- Largest CID length in the list; bounds the recursion depth of
calculateScore because each child CID is strictly longer than its
parent CID. -/
def maxCidLen (data : List Row) : Nat :=
  (data.map (fun r => r.CID.length)).foldr max 0

/-- Fueled embedding of the recursion calculateScore (App.jsx 285-303):
a leaf keeps its stored Score; an internal node gets the weighted sum of
the present child scores (note: the source accumulates weightTotal but
never divides by it).  scoreFuel is a fixed point once the fuel exceeds
maxCidLen, proved in scoreFuel_stable. -/
def scoreFuel (data : List Row) : Nat → Nat → Option ℚ
  | 0, i => (getRow data i).Score
  | fuel + 1, i =>
    match childrenIdx data i with
    | [] => (getRow data i).Score
    | cs => some (cs.foldl (fun acc c =>
        match scoreFuel data fuel c with
        | some s => acc + s * (getRow data c).weights
        | none => acc) 0)

/-- Score of row i after calculateHierarchyScores ran: the stable value
of the fueled recursion. -/
def score (data : List Row) (i : Nat) : Option ℚ :=
  scoreFuel data (maxCidLen data + 1) i

/-- The weightedSum accumulator of App.jsx 290-300 for node i: children
with absent score are skipped. -/
def weightedSumOf (data : List Row) (i : Nat) : ℚ :=
  (childrenIdx data i).foldl (fun acc c =>
    match score data c with
    | some s => acc + s * (getRow data c).weights
    | none => acc) 0

/-- The weightTotal accumulator of App.jsx 291-299 for node i: the
summed weight of the children whose score is present.  The source
computes it and never uses it. -/
def weightTotalOf (data : List Row) (i : Nat) : ℚ :=
  (childrenIdx data i).foldl (fun acc c =>
    match score data c with
    | some _ => acc + (getRow data c).weights
    | none => acc) 0

/-- Contribution of row c to its parent rollup sum: zero when its score
is absent (the exclusion path of App.jsx 296). -/
def contrib (data : List Row) (c : Nat) : ℚ :=
  match score data c with
  | some s => s * (getRow data c).weights
  | none => 0

/-- Embedding of calculateHierarchyScores (App.jsx 265-307): every row
is copied with its recomputed score (leaves keep their stored score),
then the list is sorted by naturalSort.  The in-place mutation of the
source only ever touches the Score field of the copies. -/
def calculateHierarchyScores (flatData : List Row) : List Row :=
  jsSort (fun a b => decide (naturalCompare a.CID b.CID ≠ Ordering.gt))
    ((List.range flatData.length).map (fun i => { getRow flatData i with Score := score flatData i }))

/-- The sentinel test of App.jsx 353: String(text).trim().toLowerCase()
equal to the two characters n o. -/
def isNoTxt (s : String) : Bool :=
  decide (normTxt s = ['n', 'o'])

/-- A valid (countable) maturity option: trimmed lowercased text neither
the sentinel nor empty (App.jsx 360-363, 369-371). -/
def isValidOpt (s : String) : Bool :=
  decide (normTxt s ≠ ['n', 'o'] ∧ normTxt s ≠ [])

/-- The denominator valueOptionCount of App.jsx 360-363: number of valid
options anywhere in the row. -/
def valueOptionCount (ms : List String) : Nat :=
  (ms.filter isValidOpt).length

/-- The rank loop of App.jsx 366-373: counts valid options at indices 0
to maturityIndex inclusive.  An out-of-range JS read gives undefined and
String(undefined) is the text undefined, reproduced by the getD default. -/
def rankUpTo (ms : List String) (idx : Nat) : Nat :=
  ((List.range (idx + 1)).filter (fun i => isValidOpt (ms.getD i "undefined"))).length

/-- The newScore computation of App.jsx 353-376 (the MaturityRankResolver):
0 for the sentinel, otherwise rank / valueOptionCount, and 0 when no
option is valid. -/
def resolveScore (ms : List String) (idx : Nat) (text : String) : ℚ :=
  if isNoTxt text then 0
  else if valueOptionCount ms > 0 then (rankUpTo ms idx : ℚ) / (valueOptionCount ms : ℚ)
  else 0

/-- The selection update of App.jsx 378-384: re-clicking the selected
index clears selection and score, any other index sets both. -/
def toggleStep (data : List Row) (rowIndex maturityIndex : Nat) (maturityText : String) :
    List Row :=
  let row := getRow data rowIndex
  if row.selectedMaturityIndex = (maturityIndex : Int) then
    data.set rowIndex { row with selectedMaturityIndex := -1, Score := none }
  else
    data.set rowIndex
      { row with
          selectedMaturityIndex := (maturityIndex : Int)
          Score := some (resolveScore row.maturities maturityIndex maturityText) }

/-- Embedding of handleMaturityClick (App.jsx 349-388): the toggle
update followed by the full recomputation. -/
def handleMaturityClick (data : List Row) (rowIndex maturityIndex : Nat)
    (maturityText : String) : List Row :=
  calculateHierarchyScores (toggleStep data rowIndex maturityIndex maturityText)

/-- Restatement of the claimed rank rule in the words of the spec: the
clicked option text decides the sentinel case, the denominator counts
valid options anywhere, the rank counts valid options at indices up to
and including the clicked one. -/
def specRankScore (ms : List String) (idx : Nat) : ℚ :=
  if isNoTxt (ms.getD idx "") then 0
  else if valueOptionCount ms = 0 then 0
  else (((ms.take (idx + 1)).filter isValidOpt).length : ℚ) / (valueOptionCount ms : ℚ)

/-- Shape of a d3 hierarchy for the zoom analysis: only the child
structure matters to the click handler of App.jsx 199-200. -/
inductive JTree where
  | node : List JTree → JTree

/-- Children of a zoom tree node. -/
def kidsJ : JTree → List JTree
  | .node cs => cs

/-- Node addressed by a path of child indices from the root. -/
def subtreeAt : JTree → List Nat → Option JTree
  | t, [] => some t
  | t, i :: p =>
    match (kidsJ t).get? i with
    | some c => subtreeAt c p
    | none => none

/-- Does the node at path p have children (d3 sets p.children only when
nonempty, so this is the truthiness of p.children at App.jsx 200). -/
def hasKids (t : JTree) (p : List Nat) : Bool :=
  match subtreeAt t p with
  | some c => !(kidsJ c).isEmpty
  | none => false

/-- Path of the parent node; the root is its own parent fallback
(p.parent || root at App.jsx 200). -/
def parentPath (p : List Nat) : List Nat :=
  p.dropLast

/-- The target selection of the click handler (App.jsx 199-200): a node
with children becomes the focus, a leaf yields its parent, the root
falls back to itself. -/
def clickTarget (t : JTree) (p : List Nat) : List Nat :=
  if hasKids t p then p
  else if p = [] then []
  else parentPath p

/-- The center indicator handler (App.jsx 176): it always invokes the
click handler on the partition root, whatever the current focus is. -/
def centerClickTarget (t : JTree) : List Nat :=
  clickTarget t []

/-- Chart tree for the layout analysis: each node carries the leaf value
the sum pass assigns it (its absoluteWeight when it has no children,
App.jsx 102) and its children. -/
inductive HTree where
  | node : ℚ → List HTree → HTree

/-- Children of a chart tree node. -/
def kidsH : HTree → List HTree
  | .node _ cs => cs

mutual
/-- The d3 hierarchy.sum value (App.jsx 102): a childless node
contributes its own leaf value, an internal node the sum over its
children (its own term is 0). -/
def treeValue : HTree → ℚ
  | .node w cs => if cs.isEmpty then w else sumValues cs
/-- Sum of the values of a list of subtrees. -/
def sumValues : List HTree → ℚ
  | [] => 0
  | c :: cs => treeValue c + sumValues cs
end

/-- The comparator of App.jsx 103 as a sort predicate: comparator
(a, b) maps to b.value - a.value, so a precedes b when its value is not
smaller (descending order). -/
def descLe (a b : HTree) : Bool :=
  decide (treeValue b ≤ treeValue a)

mutual
/-- The hierarchy.sort pass (App.jsx 103): every children list is
stably sorted by descending subtree value. -/
def sortTree : HTree → HTree
  | .node w cs => .node w (jsSort descLe (sortKids cs))
/-- Recursively sorts each subtree of a children list. -/
def sortKids : List HTree → List HTree
  | [] => []
  | c :: cs => sortTree c :: sortKids cs
end

/-- Geometry tree produced by the partition layout: each node carries
its angular interval (in the unit domain the x scale of App.jsx 106
maps onto 0 to 2 pi) and its laid-out children. -/
inductive PTree where
  | node : ℚ → ℚ → List PTree → PTree

mutual
/-- The d3.partition pass (App.jsx 110, 123) on the value-carrying
tree: a node spans x0 to x1 and its children divide that span
sequentially, each child receiving width value times k where k is the
span divided by the node value (k is 0 for a valueless node, the
degenerate zero-width case of the error-handling design). -/
def layout : HTree → ℚ → ℚ → PTree
  | .node w cs, x0, x1 =>
    .node x0 x1 (layoutKids cs x0
      (if treeValue (.node w cs) = 0 then 0 else (x1 - x0) / treeValue (.node w cs)))
/-- Lays children out left to right from position x with scale k. -/
def layoutKids : List HTree → ℚ → ℚ → List PTree
  | [], _, _ => []
  | c :: cs, x, k => layout c x (x + treeValue c * k) :: layoutKids cs (x + treeValue c * k) k
end

/-- Angular interval of a laid-out node. -/
def spanOf : PTree → ℚ × ℚ
  | .node x0 x1 _ => (x0, x1)

/-- Angular intervals of the children of a laid-out node, in layout
order. -/
def kidSpans : PTree → List (ℚ × ℚ)
  | .node _ _ ps => ps.map spanOf

/-- The layout the chart actually computes (App.jsx 102-123): sum, then
the descending-value sort, then partition of the unit angular domain. -/
def codeLayout (t : HTree) : PTree :=
  layout (sortTree t) 0 1

/-- Modelled from the claim wording: the same partition but with every
children list kept in its original input order (no sort pass). -/
def specOrderLayout (t : HTree) : PTree :=
  layout t 0 1

/-- Children lists sorted by descending subtree value at every level. -/
inductive AllSortedDesc : HTree → Prop where
  | mk : ∀ (w : ℚ) (cs : List HTree),
      List.Pairwise (fun a b => treeValue b ≤ treeValue a) cs →
      (∀ c ∈ cs, AllSortedDesc c) → AllSortedDesc (.node w cs)

/-- Parsed table as d3.csvParse / d3.tsvParse deliver it: the detected
column header list and one field lookup per data row (none models an
absent field). -/
structure CSVTable where
  columns : List String
  rows : List (String → Option String)

/-- The component state the import handlers touch (App.jsx 255-259). -/
structure AppState where
  data : List Row
  maturityHeaders : List String
  pasteModalOpen : Bool
  pasteText : String
  errorMsg : String

/-- Column-name normalization of App.jsx 314: toLowerCase then trim. -/
def colNorm (c : String) : List Char :=
  jsTrimL (c.toList.map lowerChar)

/-- The fuzzy column finder findCol of App.jsx 314. -/
def findCol (columns terms : List String) : Option String :=
  columns.find? (fun c => terms.any (fun t => decide (colNorm c = t.toList)))

/-- Fractional value of a run of digits read after a decimal point. -/
def fracVal (ds : List Char) : ℚ :=
  (digitsVal ds : ℚ) / ((10 : ℚ) ^ ds.length)

/-- Models parseFloat (App.jsx 24) on the percent-like decimal literals
this app feeds it: optional sign, integer digits, optional fraction;
none models NaN.  Exponent forms are not modelled. -/
def parseFloatPre (cs : List Char) : Option ℚ :=
  let signed : ℚ × List Char :=
    match cs with
    | '-' :: r => (-1, r)
    | '+' :: r => (1, r)
    | r => (1, r)
  let intPart := signed.2.takeWhile Char.isDigit
  let rest := signed.2.dropWhile Char.isDigit
  match intPart, rest with
  | [], '.' :: r2 =>
    let frac := r2.takeWhile Char.isDigit
    if frac.isEmpty then none else some (signed.1 * fracVal frac)
  | [], _ => none
  | ds, '.' :: r2 => some (signed.1 * ((digitsVal ds : ℚ) + fracVal (r2.takeWhile Char.isDigit)))
  | ds, _ => some (signed.1 * (digitsVal ds : ℚ))

/-- Removes the first percent sign, as String.replace with a plain
string argument does (App.jsx 22). -/
def removeFirstPct : List Char → List Char
  | [] => []
  | c :: cs => if c = '%' then cs else c :: removeFirstPct cs

/-- Embedding of parsePercentage (App.jsx 20-27) on string input: strip
one percent sign, trim, empty and unparseable map to 0, values above 1
are divided by 100. -/
def parsePercentage (value : String) : ℚ :=
  let sValue := jsTrimL (removeFirstPct value.toList)
  if sValue.isEmpty then 0
  else
    match parseFloatPre sValue with
    | none => 0
    | some num => if num > 1 then num / 100 else num

/-- Embedding of processRawData (App.jsx 309-347) on a parsed table:
fuzzy column detection, row formatting, recomputation, and the state
updates of the non-throwing path. -/
def processRawData (parsed : CSVTable) (st : AppState) : AppState :=
  let columns := parsed.columns
  let cidCol := (findCol columns ["cid", "id"]).getD (columns.getD 0 "")
  let critCol := (findCol columns ["criterion", "criteria", "name"]).getD (columns.getD 1 "")
  let weightCol := (findCol columns ["calculated weights", "weights", "weight"]).getD
    (columns.getD 2 "")
  let scoreCol := (findCol columns ["score", "current score"]).getD (columns.getD 3 "")
  let standardCols := [cidCol, critCol, weightCol, scoreCol]
  let detectedMaturityHeaders := columns.filter (fun c => decide (c ∉ standardCols))
  let formatted : List Row := parsed.rows.map (fun d =>
    { CID := (d cidCol).getD ""
      Criterion := (d critCol).getD ""
      weights := (match d weightCol with | none => 0 | some s => parsePercentage s)
      Score := some (match d scoreCol with | none => 0 | some s => parsePercentage s)
      maturities := detectedMaturityHeaders.map (fun h => (d h).getD "")
      selectedMaturityIndex := -1 })
  { st with maturityHeaders := detectedMaturityHeaders,
            data := calculateHierarchyScores formatted }

/-- Embedding of handlePaste (App.jsx 419-436).  The external parse of
the pasted text is passed in as an outcome: none models a parser throw
or is turned into the same catch path by the column-count guard; the
catch only sets the error message. -/
def handlePaste (parseResult : Option CSVTable) (st : AppState) : AppState :=
  match parseResult with
  | none => { st with errorMsg := "Failed to parse data. Check format." }
  | some parsed =>
    if parsed.columns.length < 2 then
      { st with errorMsg := "Failed to parse data. Check format." }
    else
      let st1 := processRawData parsed st
      { st1 with pasteModalOpen := false, pasteText := "", errorMsg := "" }

/-- Shape of a parsed JSON import (App.jsx 458-468): a bare row array,
the wrapped shape with headers, or any other JSON value. -/
inductive JsonImport where
  | arr : List Row → JsonImport
  | wrapped : List Row → List String → JsonImport
  | other : JsonImport

/-- Header inference for the legacy bare-array shape (App.jsx 462-463). -/
def inferredHeaders (rows : List Row) : List String :=
  (List.range (rows.foldl (fun m r => max m r.maturities.length) 0)).map
    (fun i => "Maturity " ++ toString (i + 1))

/-- Embedding of the onload handler of loadJson (App.jsx 456-475); the
JSON.parse outcome is passed in, none modelling a throw on malformed
JSON, which only sets the error message. -/
def loadJsonOnLoad (parseResult : Option JsonImport) (st : AppState) : AppState :=
  match parseResult with
  | none => { st with errorMsg := "Error parsing JSON file" }
  | some (.arr rows) =>
    { st with maturityHeaders := inferredHeaders rows,
              data := calculateHierarchyScores rows }
  | some (.wrapped rows headers) =>
    { st with maturityHeaders := headers,
              data := calculateHierarchyScores rows }
  | some .other => { st with data := calculateHierarchyScores [] }

/-- Dot-segment splitter used by the spec-side comparator; the
accumulator holds the current segment reversed. -/
def splitOnDotsAux : List Char → List Char → List (List Char)
  | acc, [] => [acc.reverse]
  | acc, c :: cs =>
    if c = '.' then acc.reverse :: splitOnDotsAux [] cs
    else splitOnDotsAux (c :: acc) cs

/-- Splits an id into its dot segments (an empty id gives one empty
segment, like the JS split). -/
def splitOnDots (cs : List Char) : List (List Char) :=
  splitOnDotsAux [] cs

/-- A purely numeric dot segment: nonempty and all decimal digits. -/
def isNumericSeg (seg : List Char) : Bool :=
  !seg.isEmpty && seg.all Char.isDigit

/-- Case-insensitive lexicographic comparison of two char lists. -/
def ciLexCmp : List Char → List Char → Ordering
  | [], [] => .eq
  | [], _ :: _ => .lt
  | _ :: _, [] => .gt
  | a :: as, b :: bs =>
    match compare (lowerChar a).toNat (lowerChar b).toNat with
    | .eq => ciLexCmp as bs
    | o => o

/-- Segment comparison in the words of the claim: numerically when both
segments are numeric, else lexicographically case-insensitively. -/
def segCmp (x y : List Char) : Ordering :=
  if isNumericSeg x && isNumericSeg y then compare (digitsVal x) (digitsVal y)
  else ciLexCmp x y

/-- Segment-by-segment comparison of two segment lists; the id with
fewer segments compares as smaller on a tie. -/
def segListCmp : List (List Char) → List (List Char) → Ordering
  | [], [] => .eq
  | [], _ :: _ => .lt
  | _ :: _, [] => .gt
  | x :: xs, y :: ys =>
    match segCmp x y with
    | .eq => segListCmp xs ys
    | o => o

/-- Modelled from the claim wording of the NaturalIdOrder contract: the
dotted ids compared dot-segment by dot-segment. -/
def specIdCompare (a b : String) : Ordering :=
  segListCmp (splitOnDots a.toList) (splitOnDots b.toList)

/-- Every dot segment of the id is a nonempty run of digits. -/
def allNumSegs (cs : List Char) : Bool :=
  (splitOnDots cs).all isNumericSeg

/-- Failing input for the aggregation claim: a parent with one scored
child (weight one half, score 1) and one unscored child (weight one
half). -/
def exC1 : List Row :=
  [ { CID := "1", Criterion := "parent", weights := 1, Score := none,
      maturities := [], selectedMaturityIndex := -1 },
    { CID := "1.1", Criterion := "scored", weights := 1/2, Score := some 1,
      maturities := [], selectedMaturityIndex := -1 },
    { CID := "1.2", Criterion := "unscored", weights := 1/2, Score := none,
      maturities := [], selectedMaturityIndex := -1 } ]

/-- A four-level chain: root, A, B, C; the focus path [0, 0] addresses
B, whose parent A is not the root. -/
def exZoomTree : JTree :=
  .node [ .node [ .node [ .node [] ] ] ]

/-- Chart tree with two leaves in input order: values three tenths then
seven tenths (the sort pass reorders them). -/
def exChartTree : HTree :=
  .node 0 [ .node (3/10) [], .node (7/10) [] ]

/-- Rows for the hierarchy-building examples: row 1.1 has parent row 1,
row 3.1 has no row 3. -/
def exC6 : List Row :=
  [ { CID := "1", Criterion := "a", weights := 1, Score := none,
      maturities := [], selectedMaturityIndex := -1 },
    { CID := "1.1", Criterion := "b", weights := 1, Score := some 1,
      maturities := [], selectedMaturityIndex := -1 },
    { CID := "3.1", Criterion := "c", weights := 1, Score := some 1,
      maturities := [], selectedMaturityIndex := -1 } ]

/-- A one-row list for frame-condition witnesses. -/
def exC10 : List Row :=
  [ { CID := "1", Criterion := "only", weights := 1, Score := some 1,
      maturities := [], selectedMaturityIndex := -1 } ]

/-- A single leaf row with its first maturity option selected. -/
def exToggleData : List Row :=
  [ { CID := "1", Criterion := "leaf", weights := 1, Score := some 1,
      maturities := ["Level 1"], selectedMaturityIndex := 0 } ]

/-- The maturity option row of the resolver examples. -/
def exOptions : List String :=
  ["Level 1", "Level 2", "", ""]

/-- A state with nonempty data, for the import no-op witnesses. -/
def exState : AppState :=
  { data := exC10, maturityHeaders := ["H"], pasteModalOpen := true,
    pasteText := "garbage", errorMsg := "" }

/-- A parsed table with fewer than two columns, which handlePaste
rejects through its catch path. -/
def exShortTable : CSVTable :=
  { columns := ["only"], rows := [] }

/-- A foldl that keeps the last index satisfying a predicate returns
either its seed or a member satisfying the predicate. -/
theorem foldl_lastMatch {P : Nat → Prop} [DecidablePred P] :
    ∀ (l : List Nat) (acc : Option Nat) (i : Nat),
      l.foldl (fun a j => if P j then some j else a) acc = some i →
      acc = some i ∨ (i ∈ l ∧ P i) := by
  intro l
  induction l with
  | nil => intro acc i h; exact Or.inl h
  | cons x xs ih =>
    intro acc i h
    simp only [List.foldl_cons] at h
    rcases ih _ i h with h1 | h1
    · by_cases hp : P x
      · rw [if_pos hp] at h1
        have hx : x = i := Option.some.inj h1
        exact Or.inr ⟨by simp [← hx], hx ▸ hp⟩
      · rw [if_neg hp] at h1
        exact Or.inl h1
    · exact Or.inr ⟨List.mem_cons_of_mem _ h1.1, h1.2⟩

theorem lastDotIdx_lt {cs : List Char} {i : Nat} (h : lastDotIdx cs = some i) :
    i < cs.length := by
  rcases foldl_lastMatch _ _ _ h with h1 | h1
  · cases h1
  · exact List.mem_range.mp h1.1

theorem parentCidOf_length {cid p : String} (h : parentCidOf cid = some p) :
    p.length < cid.length := by
  unfold parentCidOf at h
  cases hd : lastDotIdx cid.toList with
  | none => rw [hd] at h; cases h
  | some i =>
    rw [hd] at h
    have hi : i < cid.toList.length := lastDotIdx_lt hd
    have hp : p = String.mk (cid.toList.take i) := (Option.some.inj h).symm
    subst hp
    have h1 : (String.mk (cid.toList.take i)).length = (cid.toList.take i).length := rfl
    have h2 : cid.length = cid.toList.length := rfl
    rw [h1, h2, List.length_take]
    omega

theorem parentCidOf_take {cid p : String} (h : parentCidOf cid = some p) :
    ∃ k, k < cid.length ∧ p.toList = cid.toList.take k := by
  unfold parentCidOf at h
  cases hd : lastDotIdx cid.toList with
  | none => rw [hd] at h; cases h
  | some i =>
    rw [hd] at h
    have hi : i < cid.toList.length := lastDotIdx_lt hd
    have hp : p = String.mk (cid.toList.take i) := (Option.some.inj h).symm
    exact ⟨i, hi, by rw [hp]; rfl⟩

theorem nodeMapIdx_some {data : List Row} {cid : String} {j : Nat}
    (h : nodeMapIdx data cid = some j) :
    j < data.length ∧ (getRow data j).CID = cid := by
  rcases foldl_lastMatch _ _ _ h with h1 | h1
  · cases h1
  · exact ⟨List.mem_range.mp h1.1, h1.2⟩

theorem parentIdx_some {data : List Row} {i j : Nat} (h : parentIdx data i = some j) :
    j < data.length ∧ cidLen data j < cidLen data i := by
  unfold parentIdx at h
  cases hp : parentCidOf (getRow data i).CID with
  | none => rw [hp] at h; cases h
  | some p =>
    rw [hp] at h
    have h1 := nodeMapIdx_some h
    refine ⟨h1.1, ?_⟩
    unfold cidLen
    rw [h1.2]
    exact parentCidOf_length hp

theorem mem_childrenIdx {data : List Row} {i j : Nat} :
    i ∈ childrenIdx data j ↔ i < data.length ∧ parentIdx data i = some j := by
  unfold childrenIdx
  simp [List.mem_filter, List.mem_range]

theorem childrenIdx_bound {data : List Row} {i c : Nat} (h : c ∈ childrenIdx data i) :
    i < data.length ∧ cidLen data i < cidLen data c := by
  have h1 := mem_childrenIdx.mp h
  exact parentIdx_some h1.2

theorem le_foldr_max : ∀ (l : List Nat) (x : Nat), x ∈ l → x ≤ l.foldr max 0 := by
  intro l
  induction l with
  | nil => intro x hx; cases hx
  | cons a as ih =>
    intro x hx
    rcases List.mem_cons.mp hx with h | h
    · subst h; simp [List.foldr_cons, Nat.le_max_left]
    · exact le_trans (ih x h) (by simp [List.foldr_cons, Nat.le_max_right])

theorem cidLen_le_max {data : List Row} {i : Nat} (h : i < data.length) :
    cidLen data i ≤ maxCidLen data := by
  unfold cidLen maxCidLen getRow
  have h1 : data.getD i default = data[i] := List.getD_eq_getElem data default h
  rw [h1]
  exact le_foldr_max _ _ (List.mem_map_of_mem _ (data.getElem_mem h))

theorem childrenIdx_nil_of_deep {data : List Row} {i : Nat}
    (h : maxCidLen data < cidLen data i) : childrenIdx data i = [] := by
  by_contra hne
  rcases List.exists_mem_of_ne_nil _ hne with ⟨c, hc⟩
  have h1 := childrenIdx_bound hc
  have h2 := cidLen_le_max h1.1
  omega

theorem scoreFuel_leaf {data : List Row} {i : Nat} (h : childrenIdx data i = []) :
    ∀ f, scoreFuel data f i = (getRow data i).Score := by
  intro f
  cases f with
  | zero => rfl
  | succ f => unfold scoreFuel; rw [h]

/-- With fuel at least maxCidLen + 1 minus the CID length of the node,
the fueled recursion no longer depends on the fuel: the imperative
recursion of the source terminates and scoreFuel computes its value. -/
theorem scoreFuel_stable (data : List Row) :
    ∀ f g i, maxCidLen data + 1 ≤ f + cidLen data i →
      maxCidLen data + 1 ≤ g + cidLen data i →
      scoreFuel data f i = scoreFuel data g i := by
  intro f
  induction f using Nat.strong_induction_on with
  | _ f IH =>
    intro g i hf hg
    cases hcs : childrenIdx data i with
    | nil => rw [scoreFuel_leaf hcs, scoreFuel_leaf hcs]
    | cons c0 cs0 =>
      have hin : i < data.length := by
        have := childrenIdx_bound (hcs ▸ List.mem_cons_self c0 cs0)
        exact this.1
      have hlen : cidLen data i ≤ maxCidLen data := cidLen_le_max hin
      have hf1 : 1 ≤ f := by omega
      have hg1 : 1 ≤ g := by omega
      obtain ⟨f1, rfl⟩ : ∃ f1, f = f1 + 1 := ⟨f - 1, by omega⟩
      obtain ⟨g1, rfl⟩ : ∃ g1, g = g1 + 1 := ⟨g - 1, by omega⟩
      unfold scoreFuel
      rw [hcs]
      have hfold : ∀ c ∈ c0 :: cs0, scoreFuel data f1 c = scoreFuel data g1 c := by
        intro c hc
        have hb := childrenIdx_bound (hcs ▸ hc)
        obtain ⟨hbi, hbl⟩ := hb
        exact IH f1 (by omega) g1 c (by omega) (by omega)
      exact congrArg some (List.foldl_ext _ _ 0 (fun acc c hc => by rw [hfold c hc]))

theorem score_eq_scoreFuel {data : List Row} {f i : Nat}
    (h : maxCidLen data + 1 ≤ f) : score data i = scoreFuel data f i := by
  unfold score
  exact scoreFuel_stable data _ _ i (by omega) (by omega)

theorem score_leaf {data : List Row} {i : Nat} (h : childrenIdx data i = []) :
    score data i = (getRow data i).Score :=
  scoreFuel_leaf h _

/-- On an internal node the recomputed score is the raw weighted sum:
the source stores weightedSum without dividing by weightTotal
(App.jsx 301). -/
theorem score_internal {data : List Row} {i : Nat}
    (h : childrenIdx data i ≠ []) :
    score data i = some (weightedSumOf data i) := by
  cases hcs : childrenIdx data i with
  | nil => exact absurd hcs h
  | cons c0 cs0 =>
    have hin : i < data.length := by
      have := childrenIdx_bound (hcs ▸ List.mem_cons_self c0 cs0)
      exact this.1
    have hlen : cidLen data i ≤ maxCidLen data := cidLen_le_max hin
    unfold score scoreFuel
    rw [hcs]
    unfold weightedSumOf
    rw [hcs]
    exact congrArg some (List.foldl_ext _ _ 0 (fun acc c hc => by
      have hb := childrenIdx_bound (hcs ▸ hc)
      obtain ⟨hbi, hbl⟩ := hb
      have h2 : scoreFuel data (maxCidLen data) c = score data c :=
        scoreFuel_stable data (maxCidLen data) (maxCidLen data + 1) c (by omega) (by omega)
      rw [h2]))

theorem mem_rootChildrenIdx {data : List Row} {i : Nat} :
    i ∈ rootChildrenIdx data ↔ i < data.length ∧ parentIdx data i = none := by
  unfold rootChildrenIdx
  simp [List.mem_filter, List.mem_range]

theorem getRow_set_self {data : List Row} {i : Nat} {r : Row} (h : i < data.length) :
    getRow (data.set i r) i = r := by
  unfold getRow
  rw [List.getD_eq_getElem?_getD, List.getElem?_eq_getElem (by rw [List.length_set]; exact h)]
  simp [List.getElem_set_self]

/-- C2 (amended): the center indicator handler always activates the
partition root, whatever the current focus is — a single center click
jumps all the way back out rather than up one level — and clicking the
center while the focus is already the root leaves the focus at the
root. -/
theorem C2_center_always_root (t : JTree) :
    centerClickTarget t = [] ∧ clickTarget t (centerClickTarget t) = centerClickTarget t := by
  have h : centerClickTarget t = [] := by
    unfold centerClickTarget clickTarget
    by_cases h1 : hasKids t [] <;> simp [h1]
  refine ⟨h, ?_⟩
  rw [h]
  unfold clickTarget
  by_cases h1 : hasKids t [] <;> simp [h1]

/-- C2 counterexample: in the chain root, A, B, C with the focus at B
(path [0, 0]), the claim says the center click activates the parent A
(path [0]); the code activates the root instead. -/
theorem C2_counterexample :
    centerClickTarget exZoomTree ≠ clickTarget exZoomTree (parentPath [0, 0]) := by
  decide

/-- C7: a failed import is a no-op on the row data and sets the single
error-message slot: a pasted-text parse failure (none outcome or the
fewer-than-two-columns guard, both landing in the same catch) and a
malformed JSON file leave data unchanged with one message. -/
theorem C7_failed_import_noop (st : AppState) (tbl : CSVTable)
    (hcols : tbl.columns.length < 2) :
    (handlePaste none st).data = st.data
    ∧ (handlePaste none st).errorMsg = "Failed to parse data. Check format."
    ∧ (handlePaste (some tbl) st).data = st.data
    ∧ (handlePaste (some tbl) st).errorMsg = "Failed to parse data. Check format."
    ∧ (loadJsonOnLoad none st).data = st.data
    ∧ (loadJsonOnLoad none st).errorMsg = "Error parsing JSON file" := by
  refine ⟨rfl, rfl, ?_, ?_, rfl, rfl⟩ <;> simp [handlePaste, hcols]

theorem C7_failed_import_noop_witness :
    exShortTable.columns.length < 2
    ∧ (handlePaste (some exShortTable) exState).data = exState.data :=
  ⟨by decide, (C7_failed_import_noop exState exShortTable (by decide)).2.2.1⟩

/-- C1 evaluation at the failing input: the parent of one scored child
(weight one half, score 1) and one unscored child gets score one half,
the raw weighted sum, not the claimed quotient 1: calculateScore
accumulates weightTotal but never divides by it (App.jsx 301), so the
claimed normalization is absent from the code. -/
theorem C1_no_normalization :
    score exC1 0 = some (1/2)
    ∧ weightTotalOf exC1 0 = 1/2
    ∧ weightedSumOf exC1 0 / weightTotalOf exC1 0 = 1 := by
  have hc : childrenIdx exC1 0 = [1, 2] := by decide
  have h1 : childrenIdx exC1 1 = [] := by decide
  have h2 : childrenIdx exC1 2 = [] := by decide
  have hs1 : score exC1 1 = some 1 := by rw [score_leaf h1]; rfl
  have hs2 : score exC1 2 = none := by rw [score_leaf h2]; rfl
  have hgw1 : (getRow exC1 1).weights = 1/2 := rfl
  have hws : weightedSumOf exC1 0 = 1/2 := by
    unfold weightedSumOf
    rw [hc]
    simp only [List.foldl_cons, List.foldl_nil, hs1, hs2, hgw1]
    norm_num
  have hwt : weightTotalOf exC1 0 = 1/2 := by
    unfold weightTotalOf
    rw [hc]
    simp only [List.foldl_cons, List.foldl_nil, hs1, hs2, hgw1]
    norm_num
  refine ⟨?_, hwt, ?_⟩
  · rw [score_internal (by rw [hc]; exact List.cons_ne_nil 1 [2]), hws]
  · rw [hws, hwt]; norm_num

/-- C4: clicking the currently selected maturity index clears the
selection (index -1, score absent, so the leaf row contributes nothing
to any rollup sum), while clicking a different index sets both the
selected index and the resolved score. -/
theorem C4_toggle (data : List Row) (i idx : Nat) (text : String)
    (hi : i < data.length) :
    ((getRow data i).selectedMaturityIndex = (idx : Int) →
      (getRow (toggleStep data i idx text) i).selectedMaturityIndex = -1
      ∧ (getRow (toggleStep data i idx text) i).Score = none
      ∧ (childrenIdx (toggleStep data i idx text) i = [] →
          score (toggleStep data i idx text) i = none
          ∧ contrib (toggleStep data i idx text) i = 0))
    ∧ ((getRow data i).selectedMaturityIndex ≠ (idx : Int) →
      (getRow (toggleStep data i idx text) i).selectedMaturityIndex = (idx : Int)
      ∧ (getRow (toggleStep data i idx text) i).Score =
          some (resolveScore (getRow data i).maturities idx text)) := by
  constructor
  · intro hsel
    have ht : toggleStep data i idx text =
        data.set i { getRow data i with selectedMaturityIndex := -1, Score := none } := by
      unfold toggleStep
      rw [if_pos hsel]
    rw [ht, getRow_set_self hi]
    refine ⟨rfl, rfl, ?_⟩
    intro hleaf
    have hsc : score (data.set i { getRow data i with
        selectedMaturityIndex := -1, Score := none }) i = none := by
      rw [score_leaf hleaf, getRow_set_self hi]
    refine ⟨hsc, ?_⟩
    unfold contrib
    rw [hsc]
  · intro hsel
    have ht : toggleStep data i idx text =
        data.set i { getRow data i with
          selectedMaturityIndex := (idx : Int)
          Score := some (resolveScore (getRow data i).maturities idx text) } := by
      unfold toggleStep
      rw [if_neg hsel]
    rw [ht, getRow_set_self hi]
    exact ⟨rfl, rfl⟩

theorem C4_toggle_witness :
    (getRow exToggleData 0).selectedMaturityIndex = ((0 : Nat) : Int)
    ∧ (getRow (toggleStep exToggleData 0 0 "Level 1") 0).selectedMaturityIndex = -1
    ∧ (getRow (toggleStep exToggleData 0 0 "Level 1") 0).Score = none :=
  ⟨by decide,
   ((C4_toggle exToggleData 0 0 "Level 1" (by decide)).1 (by decide)).1,
   ((C4_toggle exToggleData 0 0 "Level 1" (by decide)).1 (by decide)).2.1⟩

/-- C6: the hierarchy builder places every row exactly once: a row
whose id minus its last dot segment is the id of a row in the lookup
map is appended to that row's children, any other row (no dot, or
parent id absent) lands in the root list, and the two cases exclude
each other; in particular row 1.1 becomes a child of row 1, and row
3.1 with no row 3 present becomes a root. -/
theorem C6_hierarchy_total (data : List Row) (i : Nat) (hi : i < data.length) :
    (i ∈ rootChildrenIdx data ∨ ∃ j, i ∈ childrenIdx data j)
    ∧ (∀ j k, i ∈ childrenIdx data j → i ∈ childrenIdx data k → j = k)
    ∧ (∀ j, i ∈ childrenIdx data j → i ∉ rootChildrenIdx data)
    ∧ (∀ p j, parentCidOf (getRow data i).CID = some p → nodeMapIdx data p = some j →
        i ∈ childrenIdx data j ∧ (getRow data j).CID = p)
    ∧ (parentIdx data i = none → i ∈ rootChildrenIdx data)
    ∧ ((1 : Nat) ∈ childrenIdx exC6 0 ∧ (2 : Nat) ∈ rootChildrenIdx exC6) := by
  refine ⟨?_, ?_, ?_, ?_, ?_, by decide, by decide⟩
  · cases hp : parentIdx data i with
    | none => exact Or.inl (mem_rootChildrenIdx.mpr ⟨hi, hp⟩)
    | some j => exact Or.inr ⟨j, mem_childrenIdx.mpr ⟨hi, hp⟩⟩
  · intro j k hj hk
    have h1 := (mem_childrenIdx.mp hj).2
    have h2 := (mem_childrenIdx.mp hk).2
    rw [h1] at h2
    exact Option.some.inj h2
  · intro j hj hroot
    have h1 := (mem_childrenIdx.mp hj).2
    have h2 := (mem_rootChildrenIdx.mp hroot).2
    rw [h1] at h2
    cases h2
  · intro p j hp hnm
    have hpi : parentIdx data i = some j := by
      unfold parentIdx
      rw [hp]
      exact hnm
    exact ⟨mem_childrenIdx.mpr ⟨hi, hpi⟩, (nodeMapIdx_some hnm).2⟩
  · intro hp
    exact mem_rootChildrenIdx.mpr ⟨hi, hp⟩

theorem C6_hierarchy_total_witness :
    (1 : Nat) < exC6.length
    ∧ ((1 : Nat) ∈ rootChildrenIdx exC6 ∨ ∃ j, (1 : Nat) ∈ childrenIdx exC6 j) :=
  ⟨by decide, (C6_hierarchy_total exC6 1 (by decide)).1⟩

/-- C9: the computed parent id is an initial segment of the row id and
strictly shorter, so along every ancestor chain the CID length strictly
decreases — the children relation is acyclic (a row can never be its
own ancestor, duplicate ids included, since that would need
cidLen i < cidLen i) — and the rollup recursion is well founded: with
fuel beyond maxCidLen the fueled recursion is a fixed point, which is
the value score returns. -/
theorem C9_termination (data : List Row) :
    (∀ i j, Relation.TransGen (fun a b => parentIdx data a = some b) i j →
      cidLen data j < cidLen data i)
    ∧ (∀ cid p, parentCidOf cid = some p →
        p.length < cid.length ∧ ∃ k, k < cid.length ∧ p.toList = cid.toList.take k)
    ∧ (∀ f i, maxCidLen data + 1 ≤ f → scoreFuel data f i = score data i) := by
  refine ⟨?_, ?_, ?_⟩
  · intro i j h
    induction h with
    | single h1 => exact (parentIdx_some h1).2
    | tail _ hbj ih => exact lt_trans (parentIdx_some hbj).2 ih
  · intro cid p h
    exact ⟨parentCidOf_length h, parentCidOf_take h⟩
  · intro f i hf
    exact (score_eq_scoreFuel hf).symm

theorem C9_termination_witness :
    cidLen exC1 0 < cidLen exC1 1 ∧ scoreFuel exC1 9 1 = score exC1 1 :=
  ⟨(C9_termination exC1).1 1 0 (Relation.TransGen.single (by decide)),
   (C9_termination exC1).2.2 9 1 (by decide)⟩

theorem rankUpTo_take (ms : List String) :
    ∀ k, k ≤ ms.length →
      ((List.range k).filter (fun i => isValidOpt (ms.getD i "undefined"))).length
        = ((ms.take k).filter isValidOpt).length := by
  intro k
  induction k with
  | zero => intro _; rfl
  | succ k ih =>
    intro hk
    have hlt : k < ms.length := by omega
    rw [List.range_succ, List.filter_append, List.length_append, ih (by omega)]
    rw [List.take_succ, List.filter_append, List.length_append]
    congr 1
    rw [List.getElem?_eq_getElem hlt]
    have hgetD : ms.getD k "undefined" = ms[k] := List.getD_eq_getElem ms "undefined" hlt
    by_cases hv : isValidOpt ms[k] = true <;>
      simp [List.filter_cons, hgetD, hv, List.getElem?_eq_getElem hlt]

/-- C3: for every row and in-range clicked index the resolved score
follows the claimed rule exactly: 0 when the clicked text is the
sentinel, otherwise the number of valid options at indices up to and
including the clicked one divided by the number of valid options in the
whole row, and 0 when no option is valid; on the row Level 1, Level 2
and two blanks, clicking index 1 gives 1 and clicking index 0 gives one
half. -/
theorem C3_rank_rule :
    (∀ (ms : List String) (idx : Nat), idx < ms.length →
      resolveScore ms idx (ms.getD idx "") = specRankScore ms idx)
    ∧ resolveScore exOptions 1 "Level 2" = 1
    ∧ resolveScore exOptions 0 "Level 1" = 1/2 := by
  refine ⟨?_, ?_, ?_⟩
  · intro ms idx hidx
    unfold resolveScore specRankScore rankUpTo
    rw [rankUpTo_take ms (idx + 1) (by omega)]
    by_cases hno : isNoTxt (ms.getD idx "") = true
    · rw [if_pos hno, if_pos hno]
    · rw [if_neg hno, if_neg hno]
      by_cases hvc : valueOptionCount ms = 0
      · rw [hvc]
        simp
      · rw [if_neg hvc, if_pos (Nat.pos_of_ne_zero hvc)]
  · have hno : isNoTxt "Level 2" = false := by decide
    have hvc : valueOptionCount exOptions = 2 := by decide
    have hr : rankUpTo exOptions 1 = 2 := by decide
    unfold resolveScore
    rw [hno, hvc, hr]
    norm_num
  · have hno : isNoTxt "Level 1" = false := by decide
    have hvc : valueOptionCount exOptions = 2 := by decide
    have hr : rankUpTo exOptions 0 = 1 := by decide
    unfold resolveScore
    rw [hno, hvc, hr]
    norm_num

theorem C3_rank_rule_witness :
    1 < exOptions.length
    ∧ resolveScore exOptions 1 (exOptions.getD 1 "") = specRankScore exOptions 1 :=
  ⟨by decide, C3_rank_rule.1 exOptions 1 (by decide)⟩

theorem insLe_perm {α : Type} (le : α → α → Bool) (a : α) :
    ∀ l : List α, (insLe le a l).Perm (a :: l) := by
  intro l
  induction l with
  | nil => exact List.Perm.refl _
  | cons b bs ih =>
    unfold insLe
    by_cases h : le a b = true
    · rw [if_pos h]
    · rw [if_neg h]
      exact List.Perm.trans (List.Perm.cons b ih) (List.Perm.swap a b bs)

theorem jsSort_perm {α : Type} (le : α → α → Bool) :
    ∀ l : List α, (jsSort le l).Perm l := by
  intro l
  induction l with
  | nil => exact List.Perm.refl _
  | cons a as ih =>
    unfold jsSort
    exact List.Perm.trans (insLe_perm le a (jsSort le as)) (List.Perm.cons a ih)

/-- C10: calculateHierarchyScores returns a list of the same length in
which every row is a copy of some input row with only its Score field
recomputed: CID, Criterion, weight, maturities, and the selected index
are untouched, and since every output row is a fresh copy the input
list itself is unaffected (the embedding is a pure function of it). -/
theorem C10_frame (d : List Row) :
    (calculateHierarchyScores d).length = d.length
    ∧ ∀ r ∈ calculateHierarchyScores d, ∃ i, i < d.length
        ∧ r.CID = (getRow d i).CID
        ∧ r.Criterion = (getRow d i).Criterion
        ∧ r.weights = (getRow d i).weights
        ∧ r.maturities = (getRow d i).maturities
        ∧ r.selectedMaturityIndex = (getRow d i).selectedMaturityIndex
        ∧ r.Score = score d i := by
  have hperm := jsSort_perm (fun a b => decide (naturalCompare a.CID b.CID ≠ Ordering.gt))
    ((List.range d.length).map (fun i => { getRow d i with Score := score d i }))
  constructor
  · unfold calculateHierarchyScores
    rw [hperm.length_eq, List.length_map, List.length_range]
  · intro r hr
    have hr2 : r ∈ (List.range d.length).map
        (fun i => { getRow d i with Score := score d i }) := by
      unfold calculateHierarchyScores at hr
      exact hperm.mem_iff.mp hr
    rcases List.mem_map.mp hr2 with ⟨i, hi, hri⟩
    subst hri
    exact ⟨i, List.mem_range.mp hi, rfl, rfl, rfl, rfl, rfl, rfl⟩

theorem C10_frame_witness :
    (calculateHierarchyScores exC10).length = exC10.length
    ∧ ∃ i, i < exC10.length
        ∧ (getRow exC10 0).CID = (getRow exC10 i).CID
        ∧ (getRow exC10 0).Criterion = (getRow exC10 i).Criterion
        ∧ (getRow exC10 0).weights = (getRow exC10 i).weights
        ∧ (getRow exC10 0).maturities = (getRow exC10 i).maturities
        ∧ (getRow exC10 0).selectedMaturityIndex = (getRow exC10 i).selectedMaturityIndex
        ∧ (getRow exC10 0).Score = score exC10 i :=
  ⟨(C10_frame exC10).1, (C10_frame exC10).2 (getRow exC10 0) (by decide)⟩

theorem mem_insLe {α : Type} {le : α → α → Bool} {a x : α} {l : List α} :
    x ∈ insLe le a l ↔ x = a ∨ x ∈ l := by
  rw [(insLe_perm le a l).mem_iff, List.mem_cons]

theorem insLe_pairwise {α : Type} (le : α → α → Bool)
    (htot : ∀ a b, le a b = true ∨ le b a = true)
    (htrans : ∀ a b c, le a b = true → le b c = true → le a c = true)
    (a : α) : ∀ l : List α, List.Pairwise (fun x y => le x y = true) l →
      List.Pairwise (fun x y => le x y = true) (insLe le a l) := by
  intro l
  induction l with
  | nil => intro _; simp [insLe]
  | cons b bs ih =>
    intro hp
    rcases List.pairwise_cons.mp hp with ⟨hb, hbs⟩
    unfold insLe
    by_cases h : le a b = true
    · rw [if_pos h]
      refine List.pairwise_cons.mpr ⟨?_, hp⟩
      intro x hx
      rcases List.mem_cons.mp hx with hx | hx
      · subst hx; exact h
      · exact htrans a b x h (hb x hx)
    · rw [if_neg h]
      refine List.pairwise_cons.mpr ⟨?_, ih hbs⟩
      intro x hx
      rcases mem_insLe.mp hx with hx | hx
      · rw [hx]
        rcases htot a b with h1 | h1
        · exact absurd h1 h
        · exact h1
      · exact hb x hx

theorem jsSort_pairwise {α : Type} (le : α → α → Bool)
    (htot : ∀ a b, le a b = true ∨ le b a = true)
    (htrans : ∀ a b c, le a b = true → le b c = true → le a c = true) :
    ∀ l : List α, List.Pairwise (fun x y => le x y = true) (jsSort le l) := by
  intro l
  induction l with
  | nil => simp [jsSort]
  | cons a as ih =>
    unfold jsSort
    exact insLe_pairwise le htot htrans a _ ih

theorem sumValues_eq_map (cs : List HTree) : sumValues cs = (cs.map treeValue).sum := by
  induction cs with
  | nil => rfl
  | cons c cs ih => show treeValue c + sumValues cs = _; rw [ih, List.map_cons, List.sum_cons]

theorem sumValues_perm {l1 l2 : List HTree} (h : l1.Perm l2) :
    sumValues l1 = sumValues l2 := by
  rw [sumValues_eq_map, sumValues_eq_map]
  exact (h.map treeValue).sum_eq

theorem treeValue_node_ne {w : ℚ} {cs : List HTree} (h : cs ≠ []) :
    treeValue (.node w cs) = sumValues cs := by
  unfold treeValue
  rw [if_neg (by simpa using h)]

theorem sortKids_length : ∀ cs : List HTree, (sortKids cs).length = cs.length := by
  intro cs
  induction cs with
  | nil => rfl
  | cons c cs ih => show (sortTree c :: sortKids cs).length = _; simp [ih]

mutual
theorem treeValue_sortTree : ∀ t : HTree, treeValue (sortTree t) = treeValue t
  | .node w cs => by
    cases cs with
    | nil => rfl
    | cons c0 cs0 =>
      have hl : jsSort descLe (sortKids (c0 :: cs0)) ≠ [] := by
        intro h
        have h2 := (jsSort_perm descLe (sortKids (c0 :: cs0))).length_eq
        rw [h, sortKids_length] at h2
        simp at h2
      show treeValue (.node w (jsSort descLe (sortKids (c0 :: cs0))))
        = treeValue (.node w (c0 :: cs0))
      rw [treeValue_node_ne hl, treeValue_node_ne (List.cons_ne_nil c0 cs0),
        sumValues_perm (jsSort_perm descLe (sortKids (c0 :: cs0))),
        sumValues_sortKids (c0 :: cs0)]
theorem sumValues_sortKids : ∀ cs : List HTree, sumValues (sortKids cs) = sumValues cs
  | [] => rfl
  | c :: cs => by
    show treeValue (sortTree c) + sumValues (sortKids cs) = treeValue c + sumValues cs
    rw [treeValue_sortTree c, sumValues_sortKids cs]
end

theorem descLe_total : ∀ a b : HTree, descLe a b = true ∨ descLe b a = true := by
  intro a b
  unfold descLe
  rcases le_total (treeValue a) (treeValue b) with h | h
  · right; exact decide_eq_true h
  · left; exact decide_eq_true h

theorem descLe_trans : ∀ a b c : HTree,
    descLe a b = true → descLe b c = true → descLe a c = true := by
  intro a b c h1 h2
  unfold descLe at h1 h2 ⊢
  exact decide_eq_true (le_trans (of_decide_eq_true h2) (of_decide_eq_true h1))

theorem mem_sortKids : ∀ {cs : List HTree} {c : HTree},
    c ∈ sortKids cs → ∃ c0, c0 ∈ cs ∧ c = sortTree c0 := by
  intro cs
  induction cs with
  | nil => intro c hc; simp [sortKids] at hc
  | cons d ds ih =>
    intro c hc
    rw [show sortKids (d :: ds) = sortTree d :: sortKids ds from rfl] at hc
    rcases List.mem_cons.mp hc with h | h
    · exact ⟨d, List.mem_cons_self d ds, h⟩
    · rcases ih h with ⟨c0, hc0, hceq⟩
      exact ⟨c0, List.mem_cons_of_mem d hc0, hceq⟩

theorem allSortedDesc_sortTree : ∀ t : HTree, AllSortedDesc (sortTree t)
  | .node w cs => by
    show AllSortedDesc (.node w (jsSort descLe (sortKids cs)))
    refine AllSortedDesc.mk w _ ?_ ?_
    · have hp := jsSort_pairwise descLe descLe_total descLe_trans (sortKids cs)
      exact hp.imp (fun h => of_decide_eq_true h)
    · intro c hc
      have hc2 : c ∈ sortKids cs := (jsSort_perm descLe (sortKids cs)).mem_iff.mp hc
      rcases mem_sortKids hc2 with ⟨c0, hc0, hceq⟩
      rw [hceq]
      exact allSortedDesc_sortTree c0
decreasing_by
  have h1 := List.sizeOf_lt_of_mem hc0
  simp [HTree.node.sizeOf_spec]
  omega

theorem layoutKids_spans : ∀ (cs : List HTree) (x k : ℚ) (i : Nat), i < cs.length →
    ((layoutKids cs x k).map spanOf).getD i (0, 0)
      = (x + sumValues (cs.take i) * k, x + sumValues (cs.take (i + 1)) * k) := by
  intro cs
  induction cs with
  | nil => intro x k i hi; simp at hi
  | cons c cs ih =>
    intro x k i hi
    cases i with
    | zero =>
      have hsp : spanOf (layout c x (x + treeValue c * k)) = (x, x + treeValue c * k) := by
        cases c with | node w cs2 => rfl
      rw [show ((layoutKids (c :: cs) x k).map spanOf)
          = spanOf (layout c x (x + treeValue c * k))
            :: (layoutKids cs (x + treeValue c * k) k).map spanOf from rfl]
      rw [List.getD_cons_zero, hsp]
      rw [show (c :: cs).take 0 = [] from rfl, show (c :: cs).take 1 = [c] from rfl]
      rw [show sumValues ([] : List HTree) = 0 from rfl,
        show sumValues [c] = treeValue c + 0 from rfl]
      rw [Prod.mk.injEq]
      constructor <;> ring
    | succ j =>
      have hj : j < cs.length := by simpa using hi
      rw [show ((layoutKids (c :: cs) x k).map spanOf)
          = spanOf (layout c x (x + treeValue c * k))
            :: (layoutKids cs (x + treeValue c * k) k).map spanOf from rfl]
      rw [List.getD_cons_succ, ih (x + treeValue c * k) k j hj]
      rw [show (c :: cs).take (j + 1) = c :: cs.take j from rfl,
        show (c :: cs).take (j + 2) = c :: cs.take (j + 1) from rfl]
      rw [show sumValues (c :: cs.take j) = treeValue c + sumValues (cs.take j) from rfl,
        show sumValues (c :: cs.take (j + 1)) = treeValue c + sumValues (cs.take (j + 1)) from rfl]
      rw [Prod.mk.injEq]
      constructor <;> ring

theorem layout_node_eq (w : ℚ) (cs : List HTree) (x0 x1 : ℚ) :
    layout (.node w cs) x0 x1
      = .node x0 x1 (layoutKids cs x0
          (if treeValue (.node w cs) = 0 then 0
           else (x1 - x0) / treeValue (.node w cs))) := rfl

theorem kidSpans_node_eq (x0 x1 : ℚ) (ps : List PTree) :
    kidSpans (.node x0 x1 ps) = ps.map spanOf := rfl

theorem layoutKids_cons_eq (c : HTree) (cs : List HTree) (x k : ℚ) :
    layoutKids (c :: cs) x k
      = layout c x (x + treeValue c * k) :: layoutKids cs (x + treeValue c * k) k := rfl

theorem layoutKids_nil_eq (x k : ℚ) : layoutKids [] x k = [] := rfl

theorem spanOf_layout (t : HTree) (x0 x1 : ℚ) : spanOf (layout t x0 x1) = (x0, x1) := by
  cases t with | node w cs => rfl


/-- C8 (amended): the partition allocates angular sub-spans
contiguously and proportionally to subtree-summed leaf value,
recursively: within a parent laid out from x with scale k (span over
value), the i-th child starts at x plus the sum of the values before it
times k and ends after its own value times k; but the sibling order is
the descending-subtree-value order the sort pass (App.jsx 103)
imposes at every level, not the original input order. -/
theorem C8_partition (cs : List HTree) (x k : ℚ) (i : Nat) (hi : i < cs.length)
    (t : HTree) :
    ((layoutKids cs x k).map spanOf).getD i (0, 0)
      = (x + sumValues (cs.take i) * k, x + sumValues (cs.take (i + 1)) * k)
    ∧ AllSortedDesc (sortTree t)
    ∧ codeLayout t = layout (sortTree t) 0 1 :=
  ⟨layoutKids_spans cs x k i hi, allSortedDesc_sortTree t, rfl⟩

theorem C8_partition_witness :
    (0 : Nat) < ([HTree.node 1 []] : List HTree).length
    ∧ ((layoutKids [HTree.node 1 []] 0 1).map spanOf).getD 0 (0, 0)
      = (0 + sumValues (([HTree.node 1 []] : List HTree).take 0) * 1,
         0 + sumValues (([HTree.node 1 []] : List HTree).take 1) * 1) :=
  ⟨by decide, (C8_partition [HTree.node 1 []] 0 1 0 (by decide) (HTree.node 1 [])).1⟩

/-- C8 counterexample: the input tree has two sibling leaves with
values three tenths and seven tenths, in that input order; the chart
layout gives the seven-tenths child the first angular sub-span
(descending-value order), while the claimed input-order partition
would give the three-tenths child the first sub-span. -/
theorem C8_counterexample :
    kidSpans (codeLayout exChartTree) ≠ kidSpans (specOrderLayout exChartTree)
    ∧ kidSpans (codeLayout exChartTree) = [(0, 7/10), (7/10, 1)]
    ∧ kidSpans (specOrderLayout exChartTree) = [(0, 3/10), (3/10, 1)] := by
  have htvB : treeValue (HTree.node (7/10) []) = 7/10 := rfl
  have htvA : treeValue (HTree.node (3/10) []) = 3/10 := rfl
  have hAB : descLe (HTree.node (3/10) []) (HTree.node (7/10) []) = false := by
    unfold descLe
    rw [htvB, htvA, decide_eq_false_iff_not]
    norm_num
  have hsort : sortTree exChartTree
      = HTree.node 0 [HTree.node (7/10) [], HTree.node (3/10) []] := by
    show HTree.node 0 (jsSort descLe (sortKids [HTree.node (3/10) [], HTree.node (7/10) []])) = _
    rw [show sortKids [HTree.node (3/10) [], HTree.node (7/10) []]
        = [HTree.node (3/10) [], HTree.node (7/10) []] from rfl]
    rw [show jsSort descLe [HTree.node (3/10) [], HTree.node (7/10) []]
        = insLe descLe (HTree.node (3/10) []) [HTree.node (7/10) []] from rfl]
    unfold insLe
    rw [hAB]
    simp [insLe]
  have htv : treeValue (HTree.node 0 [HTree.node (7/10) [], HTree.node (3/10) []]) = 1 := by
    rw [treeValue_node_ne (by simp)]
    show (7/10 : ℚ) + (3/10 + 0) = 1
    norm_num
  have htv2 : treeValue exChartTree = 1 := by
    rw [show exChartTree = HTree.node 0 [HTree.node (3/10) [], HTree.node (7/10) []] from rfl]
    rw [treeValue_node_ne (by simp)]
    show (3/10 : ℚ) + (7/10 + 0) = 1
    norm_num
  have hk : (if treeValue (HTree.node 0 [HTree.node (7/10) [], HTree.node (3/10) []]) = (0:ℚ)
      then (0:ℚ)
      else ((1:ℚ) - 0) / treeValue (HTree.node 0 [HTree.node (7/10) [], HTree.node (3/10) []]))
      = 1 := by
    rw [htv]
    norm_num
  have hk2 : (if treeValue exChartTree = (0:ℚ)
      then (0:ℚ) else ((1:ℚ) - 0) / treeValue exChartTree) = 1 := by
    rw [htv2]
    norm_num
  have hcode : kidSpans (codeLayout exChartTree) = [(0, 7/10), (7/10, 1)] := by
    unfold codeLayout
    rw [hsort, layout_node_eq, hk, kidSpans_node_eq, layoutKids_cons_eq]
    rw [htvB]
    rw [layoutKids_cons_eq, htvA, layoutKids_nil_eq]
    rw [List.map_cons, List.map_cons, List.map_nil, spanOf_layout, spanOf_layout]
    norm_num
  have hspec : kidSpans (specOrderLayout exChartTree) = [(0, 3/10), (3/10, 1)] := by
    unfold specOrderLayout
    rw [show exChartTree = HTree.node 0 [HTree.node (3/10) [], HTree.node (7/10) []] from rfl]
    rw [layout_node_eq]
    rw [show (if treeValue (HTree.node 0 [HTree.node (3/10) [], HTree.node (7/10) []]) = (0:ℚ)
        then (0:ℚ)
        else ((1:ℚ) - 0) / treeValue (HTree.node 0 [HTree.node (3/10) [], HTree.node (7/10) []]))
        = 1 from by
      rw [show treeValue (HTree.node 0 [HTree.node (3/10) [], HTree.node (7/10) []])
          = 1 from by
        rw [treeValue_node_ne (by simp)]
        show (3/10 : ℚ) + (7/10 + 0) = 1
        norm_num]
      norm_num]
    rw [kidSpans_node_eq, layoutKids_cons_eq, htvA, layoutKids_cons_eq, htvB, layoutKids_nil_eq]
    rw [List.map_cons, List.map_cons, List.map_nil, spanOf_layout, spanOf_layout]
    norm_num
  refine ⟨?_, hcode, hspec⟩
  rw [hcode, hspec]
  intro h
  have h2 := List.head_eq_of_cons_eq h
  rw [Prod.mk.injEq] at h2
  have h3 := h2.2
  norm_num at h3

theorem tokListCmp_cons (x y : NTok) (xs ys : List NTok) :
    tokListCmp (x :: xs) (y :: ys)
      = match tokCmp x y with
        | .eq => tokListCmp xs ys
        | o => o := rfl

theorem segListCmp_cons (x y : List Char) (xs ys : List (List Char)) :
    segListCmp (x :: xs) (y :: ys)
      = match segCmp x y with
        | .eq => segListCmp xs ys
        | o => o := rfl

theorem tokCmp_num (dx dy : List Char) :
    tokCmp (.num dx) (.num dy) = compare (digitsVal dx) (digitsVal dy) := rfl

theorem isNumericSeg_of {seg : List Char} (hne : seg ≠ [])
    (hdig : seg.all Char.isDigit = true) : isNumericSeg seg = true := by
  unfold isNumericSeg
  simp [hdig, List.isEmpty_iff, hne]

theorem segCmp_num {x y : List Char} (hx : isNumericSeg x = true)
    (hy : isNumericSeg y = true) :
    segCmp x y = compare (digitsVal x) (digitsVal y) := by
  unfold segCmp
  rw [if_pos (by rw [hx, hy]; rfl)]

theorem tokenizeAux_nil (run : List Char) :
    tokenizeAux run []
      = if run.isEmpty then [] else [NTok.num run.reverse] := rfl

theorem tokenizeAux_cons (run : List Char) (c : Char) (cs : List Char) :
    tokenizeAux run (c :: cs)
      = if c.isDigit then tokenizeAux (c :: run) cs
        else if run.isEmpty then NTok.chr c :: tokenizeAux [] cs
        else NTok.num run.reverse :: NTok.chr c :: tokenizeAux [] cs := rfl

theorem splitOnDotsAux_nil (acc : List Char) :
    splitOnDotsAux acc [] = [acc.reverse] := rfl

theorem splitOnDotsAux_cons (acc : List Char) (c : Char) (cs : List Char) :
    splitOnDotsAux acc (c :: cs)
      = if c = '.' then acc.reverse :: splitOnDotsAux [] cs
        else splitOnDotsAux (c :: acc) cs := rfl

theorem tokenizeAux_digits : ∀ (seg run r : List Char), seg.all Char.isDigit = true →
    tokenizeAux run (seg ++ r) = tokenizeAux (seg.reverse ++ run) r := by
  intro seg
  induction seg with
  | nil => intro run r _; simp
  | cons c cs ih =>
    intro run r h
    rw [List.all_cons, Bool.and_eq_true] at h
    show tokenizeAux run (c :: (cs ++ r)) = _
    rw [tokenizeAux_cons, if_pos h.1, ih (c :: run) r h.2, List.reverse_cons,
      List.append_assoc, List.singleton_append]

theorem tokenize_numSeg_nil (seg : List Char) (hne : seg ≠ [])
    (hdig : seg.all Char.isDigit = true) :
    tokenize (seg ++ []) = [NTok.num seg] := by
  unfold tokenize
  rw [tokenizeAux_digits seg [] [] hdig, List.append_nil, tokenizeAux_nil,
    if_neg (by simp [List.isEmpty_iff, List.reverse_eq_nil_iff, hne]), List.reverse_reverse]

theorem tokenize_numSeg_dot (seg r2 : List Char) (hne : seg ≠ [])
    (hdig : seg.all Char.isDigit = true) :
    tokenize (seg ++ '.' :: r2) = NTok.num seg :: NTok.chr '.' :: tokenize r2 := by
  unfold tokenize
  rw [tokenizeAux_digits seg [] ('.' :: r2) hdig, List.append_nil, tokenizeAux_cons,
    if_neg (by decide : ¬(('.').isDigit = true)),
    if_neg (by simp [List.isEmpty_iff, List.reverse_eq_nil_iff, hne]), List.reverse_reverse]

theorem splitOnDotsAux_seg : ∀ (seg acc r : List Char),
    seg.all (fun c => decide (c ≠ '.')) = true →
    splitOnDotsAux acc (seg ++ r) = splitOnDotsAux (seg.reverse ++ acc) r := by
  intro seg
  induction seg with
  | nil => intro acc r _; simp
  | cons c cs ih =>
    intro acc r h
    rw [List.all_cons, Bool.and_eq_true] at h
    have hc : ¬(c = '.') := of_decide_eq_true h.1
    show splitOnDotsAux acc (c :: (cs ++ r)) = _
    rw [splitOnDotsAux_cons, if_neg hc, ih (c :: acc) r h.2, List.reverse_cons,
      List.append_assoc, List.singleton_append]

theorem splitOnDots_seg_nil (seg : List Char)
    (h : seg.all (fun c => decide (c ≠ '.')) = true) :
    splitOnDots (seg ++ []) = [seg] := by
  unfold splitOnDots
  rw [splitOnDotsAux_seg seg [] [] h, List.append_nil]
  show [seg.reverse.reverse] = [seg]
  rw [List.reverse_reverse]

theorem splitOnDots_seg_dot (seg r2 : List Char)
    (h : seg.all (fun c => decide (c ≠ '.')) = true) :
    splitOnDots (seg ++ '.' :: r2) = seg :: splitOnDots r2 := by
  unfold splitOnDots
  rw [splitOnDotsAux_seg seg [] ('.' :: r2) h, List.append_nil, splitOnDotsAux_cons,
    if_pos rfl, List.reverse_reverse]

theorem splitOnDotsAux_ne_nil : ∀ (cs acc : List Char), splitOnDotsAux acc cs ≠ [] := by
  intro cs
  induction cs with
  | nil => intro acc; simp [splitOnDotsAux]
  | cons c cs ih =>
    intro acc
    rw [splitOnDotsAux_cons]
    by_cases h : c = '.'
    · rw [if_pos h]; simp
    · rw [if_neg h]; exact ih (c :: acc)

theorem splitOnDots_ne_nil (cs : List Char) : splitOnDots cs ≠ [] :=
  splitOnDotsAux_ne_nil cs []

theorem dropWhile_cases {α : Type} (p : α → Bool) :
    ∀ l : List α, l.dropWhile p = [] ∨
      ∃ x xs, l.dropWhile p = x :: xs ∧ p x = false := by
  intro l
  induction l with
  | nil => exact Or.inl rfl
  | cons a as ih =>
    by_cases h : p a = true
    · rw [List.dropWhile_cons, if_pos h]; exact ih
    · rw [List.dropWhile_cons, if_neg h]
      exact Or.inr ⟨a, as, rfl, Bool.eq_false_iff.mpr h⟩

theorem takeWhile_all {α : Type} (p : α → Bool) (l : List α) :
    (l.takeWhile p).all p = true :=
  List.all_eq_true.mpr (fun _ hx => List.mem_takeWhile_imp hx)

theorem decompose_numSegs {a : List Char} (ha : allNumSegs a = true) :
    ∃ seg r, a = seg ++ r ∧ seg ≠ [] ∧ seg.all Char.isDigit = true
      ∧ ((r = [] ∧ splitOnDots a = [seg])
         ∨ ∃ r2, r = '.' :: r2 ∧ splitOnDots a = seg :: splitOnDots r2
             ∧ allNumSegs r2 = true) := by
  have hdotfree : (a.takeWhile (fun c => decide (c ≠ '.'))).all
      (fun c => decide (c ≠ '.')) = true := takeWhile_all _ a
  have happ := List.takeWhile_append_dropWhile (fun c => decide (c ≠ '.')) a
  rcases dropWhile_cases (fun c => decide (c ≠ '.')) a with hnil | ⟨x, xs, hcons, hx⟩
  · have hsp : splitOnDots a = [a.takeWhile (fun c => decide (c ≠ '.'))] := by
      conv_lhs => rw [← happ, hnil]
      exact splitOnDots_seg_nil _ hdotfree
    have hseg : isNumericSeg (a.takeWhile (fun c => decide (c ≠ '.'))) = true := by
      rw [allNumSegs, hsp] at ha
      simpa using ha
    rw [isNumericSeg, Bool.and_eq_true] at hseg
    rw [hnil] at happ
    refine ⟨a.takeWhile (fun c => decide (c ≠ '.')), [], happ.symm, ?_, hseg.2,
      Or.inl ⟨rfl, hsp⟩⟩
    intro h
    rw [h] at hseg
    simp at hseg
  · have hxdot : x = '.' := by
      have h1 : ¬(x ≠ '.') := of_decide_eq_false hx
      by_contra h2
      exact h1 h2
    have hsp : splitOnDots a = a.takeWhile (fun c => decide (c ≠ '.')) :: splitOnDots xs := by
      conv_lhs => rw [← happ, hcons, hxdot]
      exact splitOnDots_seg_dot _ _ hdotfree
    have hseg : isNumericSeg (a.takeWhile (fun c => decide (c ≠ '.'))) = true
        ∧ allNumSegs xs = true := by
      rw [allNumSegs, hsp, List.all_cons, Bool.and_eq_true] at ha
      exact ⟨ha.1, ha.2⟩
    have hseg1 := hseg.1
    rw [isNumericSeg, Bool.and_eq_true] at hseg1
    rw [hcons] at happ
    refine ⟨a.takeWhile (fun c => decide (c ≠ '.')), x :: xs, happ.symm, ?_, hseg1.2,
      Or.inr ⟨xs, by rw [hxdot], by rw [hsp], hseg.2⟩⟩
    intro h
    rw [h] at hseg1
    simp at hseg1

theorem natCmp_eq_spec_aux : ∀ (n : Nat) (a b : List Char), a.length ≤ n →
    allNumSegs a = true → allNumSegs b = true →
    tokListCmp (tokenize a) (tokenize b) = segListCmp (splitOnDots a) (splitOnDots b) := by
  intro n
  induction n with
  | zero =>
    intro a b hlen ha _
    have ha0 : a = [] := List.length_eq_zero.mp (Nat.le_zero.mp hlen)
    subst ha0
    simp [allNumSegs, splitOnDots, splitOnDotsAux, isNumericSeg] at ha
  | succ n ih =>
    intro a b hlen ha hb
    rcases decompose_numSegs ha with ⟨segA, rA, haeq, hneA, hdigA, hcasesA⟩
    rcases decompose_numSegs hb with ⟨segB, rB, hbeq, hneB, hdigB, hcasesB⟩
    have hlenA : 1 ≤ segA.length := List.length_pos.mpr hneA
    rcases hcasesA with ⟨hrA, hspA⟩ | ⟨r2A, hrA, hspA, hnumA2⟩ <;>
      rcases hcasesB with ⟨hrB, hspB⟩ | ⟨r2B, hrB, hspB, hnumB2⟩
    · -- both single segment
      subst hrA; subst hrB
      rw [hspA, hspB, haeq, hbeq, tokenize_numSeg_nil segA hneA hdigA,
        tokenize_numSeg_nil segB hneB hdigB,
        tokListCmp_cons, segListCmp_cons, tokCmp_num,
        segCmp_num (isNumericSeg_of hneA hdigA) (isNumericSeg_of hneB hdigB)]
      cases hcmp : compare (digitsVal segA) (digitsVal segB) <;> rfl
    · -- a single segment, b has more
      subst hrA; subst hrB
      rw [hspA, hspB, haeq, hbeq, tokenize_numSeg_nil segA hneA hdigA,
        tokenize_numSeg_dot segB r2B hneB hdigB,
        tokListCmp_cons, segListCmp_cons, tokCmp_num,
        segCmp_num (isNumericSeg_of hneA hdigA) (isNumericSeg_of hneB hdigB)]
      cases hcmp : compare (digitsVal segA) (digitsVal segB)
      · rfl
      · cases hs : splitOnDots r2B with
        | nil => exact absurd hs (splitOnDots_ne_nil r2B)
        | cons s ss => rfl
      · rfl
    · -- a has more, b single segment
      subst hrA; subst hrB
      rw [hspA, hspB, haeq, hbeq, tokenize_numSeg_dot segA r2A hneA hdigA,
        tokenize_numSeg_nil segB hneB hdigB,
        tokListCmp_cons, segListCmp_cons, tokCmp_num,
        segCmp_num (isNumericSeg_of hneA hdigA) (isNumericSeg_of hneB hdigB)]
      cases hcmp : compare (digitsVal segA) (digitsVal segB)
      · rfl
      · cases hs : splitOnDots r2A with
        | nil => exact absurd hs (splitOnDots_ne_nil r2A)
        | cons s ss => rfl
      · rfl
    · -- both have further segments
      subst hrA; subst hrB
      have hlen2 : r2A.length ≤ n := by
        rw [haeq, List.length_append] at hlen
        simp at hlen
        omega
      rw [hspA, hspB, haeq, hbeq, tokenize_numSeg_dot segA r2A hneA hdigA,
        tokenize_numSeg_dot segB r2B hneB hdigB,
        tokListCmp_cons, segListCmp_cons, tokCmp_num,
        segCmp_num (isNumericSeg_of hneA hdigA) (isNumericSeg_of hneB hdigB)]
      cases hcmp : compare (digitsVal segA) (digitsVal segB)
      · rfl
      · rw [tokListCmp_cons, show tokCmp (.chr '.') (.chr '.') = Ordering.eq from by decide]
        exact ih r2A r2B hlen2 hnumA2 hnumB2
      · rfl

/-- C5 (amended): on dotted ids all of whose segments are nonempty
digit runs, the comparator is exactly the claimed segment-by-segment
order (numeric per segment, fewer segments first on a tie), and the
claimed example orderings hold; for ids with non-numeric segments the
claim does not hold as stated, because numeric collation still compares
digit runs embedded inside a segment numerically rather than comparing
the whole segment lexicographically (see the counterexample). -/
theorem C5_segmentwise (a b : String)
    (ha : allNumSegs a.toList = true) (hb : allNumSegs b.toList = true) :
    naturalCompare a b = specIdCompare a b
    ∧ naturalCompare "1.2" "1.10" = Ordering.lt
    ∧ naturalCompare "1.10" "2" = Ordering.lt
    ∧ naturalCompare "1" "1.1" = Ordering.lt :=
  ⟨natCmp_eq_spec_aux a.toList.length a.toList b.toList le_rfl ha hb,
   by decide, by decide, by decide⟩

theorem C5_segmentwise_witness :
    allNumSegs ("1.2").toList = true ∧ allNumSegs ("1.10").toList = true
    ∧ naturalCompare "1.2" "1.10" = specIdCompare "1.2" "1.10" :=
  ⟨by decide, by decide, (C5_segmentwise "1.2" "1.10" (by decide) (by decide)).1⟩

/-- C5 counterexample: on the ids a10 and a9 the comparator places a9
first, because numeric collation compares the embedded digit runs 10
and 9 as numbers, while the claimed segment rule (both segments
non-numeric, so case-insensitive lexicographic) places a10 first. -/
theorem C5_counterexample :
    naturalCompare "a10" "a9" = Ordering.gt
    ∧ specIdCompare "a10" "a9" = Ordering.lt := by
  constructor <;> decide
